import Mathlib

/-!
Verification of the board-game-framework server's room engine.

This file gives a shallow embedding of the server's core data model and
the room event loop, translated from the Go source:

* `buffer.go` — the per-id retention `Buffer` and the replay `Queue`;
* `hub.go` — the `Hub` (room) state and its single-writer event loop
  `receiveInt`, embedded as the pure step function `hubStep`;
* `main.go` — the `bounceHandler` resume-point arithmetic (`bounceNum`);
* `client.go` — the constant `reconnectionTimeout`.

Side effects of the loop (channel sends to clients, channel closes, and
the one-shot replay-queue handoff) are modelled as an explicit list of
`Output` values produced by each step.  Go's `map[*Client]bool` is
modelled as an association list keyed by `Client`, where the `Ref` field
stands in for pointer identity (the live program gives every session a
distinct `Ref`).  Go `int`/`int64` are modelled as `Int`.  Each call to
`time.Now()` during one loop iteration is modelled by the step's
`nowMs`/`nowNs` parameters.
-/

namespace BGF

/-- Envelope, from `hub.go`: the structure for messages sent to clients. -/
structure Envelope where
  From : List String
  To : List String
  Num : Int
  Time : Int
  Intent : String
  Body : List Nat
deriving DecidableEq

/-- The all-zero-value Go `Envelope{}` literal. -/
def emptyEnvelope : Envelope := ⟨[], [], 0, 0, "", []⟩

/-- Client, from `client.go`: the hub-relevant fields.  `Ref` models the
process-unique pointer identity used to distinguish two sessions sharing
an `ID`; the transport and channel fields are represented by `Output`
events instead. -/
structure Client where
  ID : String
  Num : Int
  Ref : Nat
deriving DecidableEq

/-- Message, from `hub.go`: what a Hub receives from a Client. -/
structure Message where
  From : Client
  Intent : String
  Body : List Nat
deriving DecidableEq

/-- Queue, from `buffer.go`: a queue of envelopes. -/
structure Queue where
  q : List Envelope
deriving DecidableEq

/-- `NewQueue`, from `buffer.go`: a new, empty queue. -/
def NewQueue : Queue := ⟨[]⟩

/-- `Queue.Get`, from `buffer.go`: the first item of the queue, or an
error (modelled as `none`) if the queue is empty; the returned `Queue`
is the state of the queue afterwards. -/
def Queue.Get (qu : Queue) : Option Envelope × Queue :=
  match qu.q with
  | [] => (none, qu)
  | e :: rest => (some e, ⟨rest⟩)

/-- `Queue.Add`, from `buffer.go`: append an envelope to the back. -/
def Queue.Add (qu : Queue) (e : Envelope) : Queue := ⟨qu.q ++ [e]⟩

/-- `Queue.Empty`, from `buffer.go`. -/
def Queue.Empty (qu : Queue) : Bool := qu.q.isEmpty

/-- Repeatedly `Get` from a queue, with fuel, collecting the envelopes
in the order they are produced. -/
def drainFuel : Nat → Queue → List Envelope
  | 0, _ => []
  | n + 1, qu =>
    match qu.Get with
    | (some e, qu1) => e :: drainFuel n qu1
    | (none, _) => []

/-- Buffer, from `buffer.go`: envelopes held per client id. -/
structure Buffer where
  buf : List (String × List Envelope)
deriving DecidableEq

/-- Lookup of `b.buf[id]` in the association-list model of the Go map. -/
def lookupB : List (String × List Envelope) → String → Option (List Envelope)
  | [], _ => none
  | (k, es) :: rest, id => if k = id then some es else lookupB rest id

/-- The map write performed by `Buffer.Add`: append to the id's entry,
creating the entry if absent. -/
def addB : List (String × List Envelope) → String → Envelope → List (String × List Envelope)
  | [], id, e => [(id, [e])]
  | (k, es) :: rest, id, e =>
    if k = id then (k, es ++ [e]) :: rest else (k, es) :: addB rest id e

/-- The map delete performed by `Buffer.Remove`. -/
def removeB : List (String × List Envelope) → String → List (String × List Envelope)
  | [], _ => []
  | (k, es) :: rest, id => if k = id then rest else (k, es) :: removeB rest id

/-- `NewBuffer`, from `buffer.go`. -/
def NewBuffer : Buffer := ⟨[]⟩

/-- `Buffer.Add`, from `buffer.go`: add an envelope for a given client id. -/
def Buffer.Add (b : Buffer) (id : String) (e : Envelope) : Buffer :=
  ⟨addB b.buf id e⟩

/-- `Buffer.Remove`, from `buffer.go`: drop all entries of a client id. -/
def Buffer.Remove (b : Buffer) (id : String) : Buffer :=
  ⟨removeB b.buf id⟩

/-- The scan in `Buffer.Queue`: the suffix of the list starting at the
first envelope whose `Num` equals `num`, or `[]` if there is none. -/
def suffixFrom : List Envelope → Int → List Envelope
  | [], _ => []
  | e :: rest, num => if e.Num = num then e :: rest else suffixFrom rest num

/-- `Buffer.Queue`, from `buffer.go`: extract a queue from a given num
onwards for some client id (empty if the id is unknown or the num is not
present). -/
def Buffer.Queue (b : Buffer) (id : String) (num : Int) : Queue :=
  match lookupB b.buf id with
  | none => NewQueue
  | some es => ⟨suffixFrom es num⟩

/-- The scan in `Buffer.Available`. -/
def hasNum : List Envelope → Int → Bool
  | [], _ => false
  | e :: rest, num => e.Num == num || hasNum rest num

/-- `Buffer.Available`, from `buffer.go`: whether an envelope with this
num is held for this client id. -/
def Buffer.Available (b : Buffer) (id : String) (num : Int) : Bool :=
  match lookupB b.buf id with
  | none => false
  | some es => hasNum es num

/-- `reconnectionTimeout`, from `client.go`: 3 seconds, in nanoseconds
(Go `time.Duration` units). -/
def reconnectionTimeout : Int := 3000000000

/-- The eviction threshold computed inside `Buffer.Clean`:
`keep := time.Now().Add(reconnectionTimeout * -11 / 10)` followed by
`keepMs := keep.UnixNano() / 1_000_000`, with Go's truncating integer
division (`Int.tdiv`). -/
def cleanKeepMs (nowNs : Int) : Int :=
  ((nowNs + (reconnectionTimeout * (-11)).tdiv 10)).tdiv 1000000

/-- The inner loop of `Buffer.Clean` on one id's entry: replace the
entry by its suffix from the first envelope with `Time ≥ keepMs`; if no
envelope is that new the loop never breaks and the entry is left
unchanged. -/
def dropUntilFresh (keepMs : Int) : List Envelope → Option (List Envelope)
  | [] => none
  | e :: rest =>
    if keepMs ≤ e.Time then some (e :: rest) else dropUntilFresh keepMs rest

/-- One id's entry after `Buffer.Clean`. -/
def cleanList (keepMs : Int) (es : List Envelope) : List Envelope :=
  (dropUntilFresh keepMs es).getD es

/-- `Buffer.Clean`, from `buffer.go`: clean the buffer of all envelopes
older than `reconnectionTimeout` plus a safety margin.  `nowNs` models
the `time.Now()` read. -/
def Buffer.Clean (b : Buffer) (nowNs : Int) : Buffer :=
  ⟨b.buf.map (fun kv => (kv.1, cleanList (cleanKeepMs nowNs) kv.2))⟩

/-- `lastNum`/`num` arithmetic of `bounceHandler` in `main.go`: the `Num`
given to a freshly constructed client from the `lastnum` query value. -/
def bounceNum (lastNum : Int) : Int :=
  if 0 ≤ lastNum then lastNum + 1 else lastNum

/-- Hub, from `hub.go`: a room.  `clients` models `map[*Client]bool`
("True: Client is connected … False: Client is disconnected … present as
far as other clients are concerned … Only one client per ID should be
known at any time"), `num` is the num for the next envelope, `buffer`
the retention buffer. -/
structure Hub where
  clients : List (Client × Bool)
  num : Int
  buffer : Buffer
deriving DecidableEq

/-- `NewHub`, from `hub.go`. -/
def NewHub : Hub := ⟨[], 0, NewBuffer⟩

/-- The side effects a step of the hub loop performs on sessions. -/
inductive Output where
  /-- `c.Pending <- env`: hand an envelope to the session's ingress. -/
  | Push (c : Client) (env : Envelope)
  /-- `close(c.Pending)`: close the session's ingress channel. -/
  | CloseChan (c : Client)
  /-- `c.InitialQueue <- q`: the one-shot replay-queue handoff. -/
  | HandQueue (c : Client) (qu : Queue)
deriving DecidableEq

/-- Lookup of `h.clients[c]` (a Go map read; absent keys read as the
zero value only where the source uses the one-result form). -/
def lookupC : List (Client × Bool) → Client → Option Bool
  | [], _ => none
  | (k, b) :: rest, c => if k = c then some b else lookupC rest c

/-- The map write `h.clients[c] = v`: update in place, or add the key. -/
def setC : List (Client × Bool) → Client → Bool → List (Client × Bool)
  | [], c, v => [(c, v)]
  | (k, b) :: rest, c, v =>
    if k = c then (c, v) :: rest else (k, b) :: setC rest c v

/-- The map delete `delete(h.clients, c)`. -/
def deleteC : List (Client × Bool) → Client → List (Client × Bool)
  | [], _ => []
  | (k, b) :: rest, c => if k = c then rest else (k, b) :: deleteC rest c

/-- `ids`, from `hub.go`: just the IDs of the clients. -/
def ids (cs : List Client) : List String := cs.map Client.ID

/-- `Hub.connected`, from `hub.go`: is a client known and connected?
(`h.clients[c]`, reading the zero value `false` for absent keys). -/
def Hub.connected (h : Hub) (c : Client) : Bool :=
  (lookupC h.clients c).getD false

/-- `Hub.known`, from `hub.go`: is a client in the map at all? -/
def Hub.known (h : Hub) (c : Client) : Bool :=
  (lookupC h.clients c).isSome

/-- `Hub.disconnected`, from `hub.go`: known and not connected? -/
def Hub.disconnected (h : Hub) (c : Client) : Bool :=
  match lookupC h.clients c with
  | none => false
  | some conn => !conn

/-- `Hub.other`, from `hub.go`: the last map entry (in iteration order)
whose ID matches `c.ID`, or `none`.  (On finding a second match the
source only logs an error and carries on overwriting `cOther`.) -/
def Hub.other (h : Hub) (c : Client) : Option Client :=
  h.clients.foldl (fun acc kv => if kv.1.ID = c.ID then some kv.1 else acc) none

/-- `Hub.exclude`, from `hub.go`: all clients which are not the given
one, matched on (pointer) identity. -/
def Hub.exclude (h : Hub) (cx : Client) : List Client :=
  (h.clients.filter (fun kv => kv.1 ≠ cx)).map Prod.fst

/-- `Hub.excludeID`, from `hub.go`: the IDs of all clients which are not
the given client. -/
def Hub.excludeID (h : Hub) (cx : Client) : List String :=
  ids (h.exclude cx)

/-- `Hub.allIDs`, from `hub.go`: all the IDs known to the hub. -/
def Hub.allIDs (h : Hub) : List String :=
  ids (h.clients.map Prod.fst)

/-- `Hub.remove`, from `hub.go`: forget a client and drop its buffer
entries. -/
def Hub.remove (h : Hub) (c : Client) : Hub :=
  { h with clients := deleteC h.clients c, buffer := h.buffer.Remove c.ID }

/-- `Hub.connect`, from `hub.go`: mark a client connected and hand it
its starting queue. -/
def Hub.connect (h : Hub) (c : Client) (qu : Queue) : Hub × List Output :=
  ({ h with clients := setC h.clients c true }, [Output.HandQueue c qu])

/-- `Hub.disconnect`, from `hub.go`: close the ingress if the client is
connected, then write `h.clients[c] = false` (note: this Go map write
inserts `c` if it was not in the map). -/
def Hub.disconnect (h : Hub) (c : Client) : Hub × List Output :=
  let outs := if h.connected c then [Output.CloseChan c] else []
  ({ h with clients := setC h.clients c false }, outs)

/-- `Hub.replace`, from `hub.go`: a new connected client replaces an old
one; the old one is shut down if still connected and forgotten; the new
one starts off with the given queue.  A no-op if the old client is not
known. -/
def Hub.replace (h : Hub) (cNew : Client) (qNew : Queue) (cOld : Client) : Hub × List Output :=
  if h.known cOld = false then (h, [])
  else
    let outs := if h.connected cOld then [Output.CloseChan cOld] else []
    ({ h with clients := setC (deleteC h.clients cOld) cNew true },
     outs ++ [Output.HandQueue cNew qNew])

/-- `Hub.send`, from `hub.go`: buffer the envelope for the client either
way, and hand it to the client's ingress if it is connected. -/
def Hub.send (h : Hub) (c : Client) (env : Envelope) : Hub × List Output :=
  ({ h with buffer := h.buffer.Add c.ID env },
   if h.connected c then [Output.Push c env] else [])

/-- The `for cl := range …` send loops of `hub.joiner`/`hub.leaver` and
the Peer case: send one envelope to each listed client in turn. -/
def Hub.sendToEach : Hub → List Client → Envelope → Hub × List Output
  | h, [], _ => (h, [])
  | h, cl :: rest, env =>
    let r1 := h.send cl env
    let r2 := r1.1.sendToEach rest env
    (r2.1, r1.2 ++ r2.2)

/-- `Hub.welcome`, from `hub.go`: a Welcome envelope buffered for and
pushed to just this client. -/
def Hub.welcome (h : Hub) (c : Client) (nowMs : Int) : Hub × List Output :=
  let env : Envelope :=
    { From := h.excludeID c, To := [c.ID], Num := h.num, Time := nowMs,
      Intent := "Welcome", Body := [] }
  ({ h with buffer := h.buffer.Add c.ID env }, [Output.Push c env])

/-- `Hub.joiner`, from `hub.go`: a Joiner envelope about `c`, sent to
every client except `c`. -/
def Hub.joiner (h : Hub) (c : Client) (nowMs : Int) : Hub × List Output :=
  let env : Envelope :=
    { From := [c.ID], To := h.excludeID c, Num := h.num, Time := nowMs,
      Intent := "Joiner", Body := [] }
  h.sendToEach (h.exclude c) env

/-- `Hub.leaver`, from `hub.go`: a Leaver envelope about `c`, sent to
every client. -/
def Hub.leaver (h : Hub) (c : Client) (nowMs : Int) : Hub × List Output :=
  let env : Envelope :=
    { From := [c.ID], To := h.allIDs, Num := h.num, Time := nowMs,
      Intent := "Leaver", Body := [] }
  h.sendToEach (h.clients.map Prod.fst) env

/-- `Hub.canFulfill`, from `hub.go`: can we send the next num the client
is expecting? -/
def Hub.canFulfill (h : Hub) (id : String) (num : Int) : Bool :=
  num < 0 || num == h.num || h.buffer.Available id num

/-- One input selected by the `receiveInt` loop: a reconnection-timeout
notice from the superhub, or a pending message from a client. -/
inductive Input where
  | timeout (c : Client)
  | pending (m : Message)
deriving DecidableEq

/-- One iteration of the `receiveInt` loop in `hub.go`, as a pure step:
given the hub state and the selected input, produce the next state, the
session side effects in order, and whether the loop breaks.  `nowMs`
models the `nowMs()` reads composing envelopes and `nowNs` the
`time.Now()` read inside the closing `h.buffer.Clean()`. -/
def hubStep (h : Hub) (inp : Input) (nowMs nowNs : Int) : Hub × List Output × Bool :=
  match inp with
  | Input.timeout c =>
    if h.known c = false then (h, [], false)
    else
      let h1 := h.remove c
      if h1.clients.isEmpty then (h1, [], true)
      else
        let r := h1.leaver c nowMs
        ({ r.1 with num := r.1.num + 1 }, r.2, false)
  | Input.pending m =>
    let c := m.From
    let r :=
      if m.Intent = "Joiner" ∧ h.canFulfill c.ID c.Num = false then
        -- New client but bad lastnum; eject client
        (h, [Output.HandQueue c (h.buffer.Queue c.ID c.Num),
             Output.Push c { emptyEnvelope with Intent := "BadLastnum" },
             Output.CloseChan c])
      else if m.Intent = "Joiner" ∧ (h.other c).isSome = true ∧
          h.canFulfill c.ID c.Num = true then
        -- New client taking over from old client
        h.replace c (h.buffer.Queue c.ID c.Num) ((h.other c).getD c)
      else if m.Intent = "Joiner" ∧ (h.other c).isSome = true ∧ c.Num < 0 then
        -- New client for old ID, but didn't ask to take over
        let cOld := (h.other c).getD c
        let hA := h.remove cOld
        let r1 := hA.leaver cOld nowMs
        let hB := { r1.1 with num := r1.1.num + 1 }
        let r2 := hB.connect c NewQueue
        let r3 := r2.1.joiner c nowMs
        let r4 := r3.1.welcome c nowMs
        ({ r4.1 with num := r4.1.num + 1 }, r1.2 ++ r2.2 ++ r3.2 ++ r4.2)
      else if m.Intent = "Joiner" ∧ (h.other c).isSome = false then
        -- New joiner
        let r1 := h.connect c NewQueue
        let r2 := r1.1.joiner c nowMs
        let r3 := r2.1.welcome c nowMs
        ({ r3.1 with num := r3.1.num + 1 }, r1.2 ++ r2.2 ++ r3.2)
      else if m.Intent = "LostConnection" then
        h.disconnect c
      else if m.Intent = "Peer" then
        let toCls := h.exclude c
        let envP : Envelope :=
          { From := [c.ID], To := ids toCls, Num := h.num, Time := nowMs,
            Intent := "Peer", Body := m.Body }
        let r1 := h.sendToEach toCls envP
        let envR : Envelope :=
          { From := envP.From, To := envP.To, Num := envP.Num,
            Time := envP.Time, Intent := "Receipt", Body := envP.Body }
        let r2 := r1.1.send c envR
        ({ r2.1 with num := r2.1.num + 1 }, r1.2 ++ r2.2)
      else
        -- "Should never get here": only logged
        (h, [])
    ({ r.1 with buffer := r.1.buffer.Clean nowNs }, r.2, false)

/-- One timed input for a run of the loop. -/
structure TInput where
  inp : Input
  nowMs : Int
  nowNs : Int

/-- Run the `receiveInt` loop over a list of inputs, accumulating the
session side effects in order; the loop stops early when a step breaks. -/
def runHub : Hub → List TInput → Hub × List Output × Bool
  | h, [] => (h, [], false)
  | h, ti :: rest =>
    let r1 := hubStep h ti.inp ti.nowMs ti.nowNs
    if r1.2.2 then (r1.1, r1.2.1, true)
    else
      let r2 := runHub r1.1 rest
      (r2.1, r1.2.1 ++ r2.2.1, r2.2.2)

/-- The nums a given session is handed, in order: the envelopes of its
one-shot replay queue where it is handed one, and every envelope pushed
to its ingress.  (The session drains the replay queue first and appends
live pushes to its tail — `client.go` — so this is its observation
order.) -/
def deliveredNums (outs : List Output) (c : Client) : List Int :=
  match outs with
  | [] => []
  | Output.Push c1 env :: rest =>
    if c1 = c then env.Num :: deliveredNums rest c else deliveredNums rest c
  | Output.HandQueue c1 qu :: rest =>
    if c1 = c then qu.q.map Envelope.Num ++ deliveredNums rest c
    else deliveredNums rest c
  | Output.CloseChan _ :: rest => deliveredNums rest c

/-- Strict ascent of a list of nums, as a computable check. -/
def strictlyUp : List Int → Bool
  | [] => true
  | [_] => true
  | a :: b :: rest => a < b && strictlyUp (b :: rest)

/-!
### Concrete sessions and traces

Concrete data used to evaluate the loop at explicit inputs.  All
sessions below behave as the live program would drive them: a session
posts `Joiner` as its first message and `LostConnection` when its
reader dies, and a replacement session carries `Num = bounceNum k` for
resume-point `k` (`main.go`).
-/

/-- A session with id `Y`, no resume-point. -/
def sessY : Client := ⟨"Y", -1, 0⟩

/-- First session with id `X`, no resume-point. -/
def sessX1 : Client := ⟨"X", -1, 1⟩

/-- Second session with id `X`, no resume-point (`lastNum < 0`). -/
def sessX2 : Client := ⟨"X", -1, 2⟩

/-- Third session with id `X`, resume-point `lastNum = 2`, so
`Num = bounceNum 2 = 3`. -/
def sessX3 : Client := ⟨"X", 3, 3⟩

/-- Trace for claim C6: `X`'s first session joins, a second session with
the same id takes over, then the first session's reader notices the dead
transport and posts `LostConnection` (exactly what `client.receiveExt`
does after `replace` closed its ingress). -/
def c6trace : List TInput :=
  [ ⟨Input.pending ⟨sessX1, "Joiner", []⟩, 0, 0⟩,
    ⟨Input.pending ⟨sessX2, "Joiner", []⟩, 0, 0⟩,
    ⟨Input.pending ⟨sessX1, "LostConnection", []⟩, 0, 0⟩ ]

/-- Trace for claim C3: `Y` joins; `X` joins, is taken over by a second
`X` session, and the first session's late `LostConnection` arrives; `Y`
then sends two Peer messages (nums 2 and 3); the second `X` session
drops and a third attaches with resume-point 2 (`Num = bounceNum 2`). -/
def c3trace : List TInput :=
  [ ⟨Input.pending ⟨sessY, "Joiner", []⟩, 0, 0⟩,
    ⟨Input.pending ⟨sessX1, "Joiner", []⟩, 0, 0⟩,
    ⟨Input.pending ⟨sessX2, "Joiner", []⟩, 0, 0⟩,
    ⟨Input.pending ⟨sessX1, "LostConnection", []⟩, 0, 0⟩,
    ⟨Input.pending ⟨sessY, "Peer", [1]⟩, 0, 0⟩,
    ⟨Input.pending ⟨sessY, "Peer", [2]⟩, 0, 0⟩,
    ⟨Input.pending ⟨sessX2, "LostConnection", []⟩, 0, 0⟩,
    ⟨Input.pending ⟨sessX3, "Joiner", []⟩, 0, 0⟩ ]

/-- The room state for claim C1: one connected session with id `X`
(reached from the empty room by that session joining). -/
def hubC1 : Hub :=
  (runHub NewHub [⟨Input.pending ⟨sessX1, "Joiner", []⟩, 0, 0⟩]).1

/-- Retained envelope with num 5 for the C2 counterexample. -/
def env5 : Envelope := ⟨["Y"], ["X"], 5, 0, "Peer", [1]⟩

/-- Retained envelope with num 6 for the C2 counterexample. -/
def env6 : Envelope := ⟨["Y"], ["X"], 6, 0, "Peer", [2]⟩

/-- The old still-joined session with id `X` in the C2 counterexample. -/
def cOldC2 : Client := ⟨"X", -1, 20⟩

/-- The replacement session in the C2 counterexample: resume-point
`lastNum = 5`, so `Num = bounceNum 5 = 6`. -/
def cNewC2 : Client := ⟨"X", 6, 21⟩

/-- The room state for the C2 counterexample: `X` still joined, nums 5
and 6 retained for `X`, next seq 7. -/
def hubC2 : Hub := ⟨[(cOldC2, true)], 7, ⟨[("X", [env5, env6])]⟩⟩

/-- An envelope older than the cleaning threshold used in the C8
counterexample. -/
def envStale : Envelope := ⟨[], [], 0, 0, "Peer", []⟩

/-- A buffer whose only entry holds only stale envelopes. -/
def bufStale : Buffer := ⟨[("a", [envStale])]⟩

/-!
### Supporting lemmas
-/

theorem foldl_Add_q (es : List Envelope) :
    ∀ qu : Queue, (es.foldl Queue.Add qu).q = qu.q ++ es := by
  induction es with
  | nil => intro qu; simp
  | cons e rest ih =>
    intro qu
    simp [List.foldl_cons, ih, Queue.Add]

theorem drainFuel_list (l : List Envelope) : drainFuel l.length ⟨l⟩ = l := by
  induction l with
  | nil => rfl
  | cons e rest ih => simp [drainFuel, Queue.Get, ih]

theorem hasNum_false_suffixFrom (num : Int) (es : List Envelope)
    (h : hasNum es num = false) : suffixFrom es num = [] := by
  induction es with
  | nil => rfl
  | cons e rest ih =>
    simp only [hasNum, Bool.or_eq_false_iff, beq_eq_false_iff_ne] at h
    simp only [suffixFrom, if_neg h.1]
    exact ih h.2

theorem Queue_empty_of_not_available (b : Buffer) (id : String) (num : Int)
    (h : b.Available id num = false) : b.Queue id num = NewQueue := by
  unfold Buffer.Queue
  unfold Buffer.Available at h
  cases hl : lookupB b.buf id with
  | none => rfl
  | some es =>
    rw [hl] at h
    simp only [NewQueue]
    rw [hasNum_false_suffixFrom num es h]

/-!
### Claim C10

`Queue.Get` errors exactly on the empty queue, leaving it unchanged;
otherwise it returns and removes the oldest envelope; Adds followed by
Gets are FIFO.
-/

/-- C10: `Queue.Get` returns an error (modelled `none`) exactly when the
queue is empty, and then leaves the queue unchanged; on a non-empty
queue it returns the first envelope and removes only that envelope; and
a sequence of `Add`s followed by repeated `Get`s yields the envelopes in
insertion order. -/
theorem queue_fifo_spec :
    (∀ qu : Queue, (qu.Get).1 = none ↔ qu.q = []) ∧
    (∀ qu : Queue, qu.q = [] → qu.Get = (none, qu)) ∧
    (∀ (e : Envelope) (rest : List Envelope),
      Queue.Get ⟨e :: rest⟩ = (some e, ⟨rest⟩)) ∧
    (∀ es : List Envelope,
      drainFuel es.length (es.foldl Queue.Add NewQueue) = es) := by
  refine ⟨?_, ?_, ?_, ?_⟩
  · intro qu
    cases hq : qu.q with
    | nil => cases qu; cases hq; simp [Queue.Get]
    | cons e rest => cases qu; cases hq; simp [Queue.Get]
  · intro qu hq
    cases qu; cases hq; rfl
  · intro e rest; rfl
  · intro es
    have h1 : (es.foldl Queue.Add NewQueue).q = es := by
      rw [foldl_Add_q]; rfl
    have h2 : es.foldl Queue.Add NewQueue = ⟨es⟩ := by
      cases hfe : es.foldl Queue.Add NewQueue
      rw [hfe] at h1
      simpa using h1
    rw [h2, drainFuel_list]

/-- C10 witness: the spec applied at concrete queues. -/
theorem queue_fifo_spec_witness :
    Queue.Get ⟨[]⟩ = (none, ⟨[]⟩) ∧
    drainFuel 2 ([env5, env6].foldl Queue.Add NewQueue) = [env5, env6] := by
  exact ⟨queue_fifo_spec.2.1 ⟨[]⟩ rfl, queue_fifo_spec.2.2.2 [env5, env6]⟩

/-!
### Claim C5

A Joiner whose num is non-negative and not fulfillable is handed an
empty queue, gets a single BadLastnum event, has its ingress closed, and
is never added to the membership; the seq counter is unchanged.
-/

/-- C5: for a Joiner request from `c` with `c.Num ≥ 0`, `c.Num` not the
current seq, and `c.Num` not available in the buffer for `c.ID`, the
step replies with the empty replay queue, pushes a single BadLastnum
event to `c`, closes `c`'s ingress, changes no membership and leaves the
seq counter unchanged (only the routine end-of-step buffer clean runs). -/
theorem bad_lastnum_rejection_spec (h : Hub) (c : Client) (body : List Nat)
    (nowMs nowNs : Int) (h0 : 0 ≤ c.Num) (h1 : c.Num ≠ h.num)
    (h2 : h.buffer.Available c.ID c.Num = false) :
    hubStep h (Input.pending ⟨c, "Joiner", body⟩) nowMs nowNs =
      ({ h with buffer := h.buffer.Clean nowNs },
       [Output.HandQueue c NewQueue,
        Output.Push c { emptyEnvelope with Intent := "BadLastnum" },
        Output.CloseChan c],
       false) ∧
    (hubStep h (Input.pending ⟨c, "Joiner", body⟩) nowMs nowNs).1.clients
      = h.clients ∧
    (hubStep h (Input.pending ⟨c, "Joiner", body⟩) nowMs nowNs).1.num = h.num := by
  have hcf : h.canFulfill c.ID c.Num = false := by
    unfold Hub.canFulfill
    have hlt : decide (c.Num < 0) = false := by
      simp only [decide_eq_false_iff_not, not_lt]; exact h0
    have heq : (c.Num == h.num) = false := by
      simp only [beq_eq_false_iff_ne, ne_eq]; exact h1
    rw [hlt, heq, h2]; rfl
  have hmain :
      hubStep h (Input.pending ⟨c, "Joiner", body⟩) nowMs nowNs =
        ({ h with buffer := h.buffer.Clean nowNs },
         [Output.HandQueue c NewQueue,
          Output.Push c { emptyEnvelope with Intent := "BadLastnum" },
          Output.CloseChan c],
         false) := by
    have hq := Queue_empty_of_not_available h.buffer c.ID c.Num h2
    simp only [hubStep, hcf, hq]
    rfl
  exact ⟨hmain, by rw [hmain], by rw [hmain]⟩

/-- C5 witness: a rejection at an explicit room and session.  The room
holds one session with id `X` and num 5 retained; the joiner asks for
num 9 which is neither current (7) nor retained. -/
theorem bad_lastnum_rejection_spec_witness :
    (0 : Int) ≤ (9 : Int) ∧
    hubStep hubC2 (Input.pending ⟨⟨"X", 9, 30⟩, "Joiner", []⟩) 0 0 =
      ({ hubC2 with buffer := hubC2.buffer.Clean 0 },
       [Output.HandQueue ⟨"X", 9, 30⟩ NewQueue,
        Output.Push ⟨"X", 9, 30⟩ { emptyEnvelope with Intent := "BadLastnum" },
        Output.CloseChan ⟨"X", 9, 30⟩],
       false) := by
  refine ⟨by decide, ?_⟩
  exact (bad_lastnum_rejection_spec hubC2 ⟨"X", 9, 30⟩ [] 0 0
    (by decide) (by decide) (by decide)).1

/-!
### Claim C8

Behaviour of `Buffer.Clean`.
-/

theorem dropUntilFresh_some_head (k : Int) (es s : List Envelope)
    (h : dropUntilFresh k es = some s) :
    ∃ e t, s = e :: t ∧ k ≤ e.Time := by
  induction es with
  | nil => cases h
  | cons e rest ih =>
    by_cases he : k ≤ e.Time
    · rw [dropUntilFresh, if_pos he] at h
      exact ⟨e, rest, (Option.some_inj.mp h).symm, he⟩
    · rw [dropUntilFresh, if_neg he] at h
      exact ih h

theorem dropUntilFresh_some_suffix (k : Int) (es s : List Envelope)
    (h : dropUntilFresh k es = some s) : s.IsSuffix es := by
  induction es with
  | nil => cases h
  | cons e rest ih =>
    by_cases he : k ≤ e.Time
    · rw [dropUntilFresh, if_pos he] at h
      rw [← Option.some_inj.mp h]
    · rw [dropUntilFresh, if_neg he] at h
      exact (ih h).trans (List.suffix_cons e rest)

theorem dropUntilFresh_none (k : Int) (es : List Envelope)
    (h : dropUntilFresh k es = none) : ∀ e ∈ es, e.Time < k := by
  induction es with
  | nil => intro e he; cases he
  | cons x rest ih =>
    by_cases hx : k ≤ x.Time
    · rw [dropUntilFresh, if_pos hx] at h; cases h
    · rw [dropUntilFresh, if_neg hx] at h
      intro e he
      rcases List.mem_cons.mp he with h1 | h1
      · exact h1 ▸ not_le.mp hx
      · exact ih h e h1

theorem cleanList_suffix (k : Int) (es : List Envelope) :
    (cleanList k es).IsSuffix es := by
  unfold cleanList
  cases hd : dropUntilFresh k es with
  | none => simp
  | some s => simpa using dropUntilFresh_some_suffix k es s hd

theorem mem_cleanList_of_fresh (k : Int) (es : List Envelope) (e : Envelope)
    (hmem : e ∈ es) (hfresh : k ≤ e.Time) : e ∈ cleanList k es := by
  induction es with
  | nil => cases hmem
  | cons x rest ih =>
    by_cases hx : k ≤ x.Time
    · rw [cleanList, dropUntilFresh, if_pos hx]
      exact hmem
    · rw [cleanList, dropUntilFresh, if_neg hx]
      have hmem2 : e ∈ rest := by
        rcases List.mem_cons.mp hmem with h1 | h1
        · exact absurd (h1 ▸ hfresh) hx
        · exact h1
      cases hd : dropUntilFresh k rest with
      | none => simp [List.mem_cons.mpr (Or.inr hmem2)]
      | some s =>
        have := ih hmem2
        rw [cleanList, hd] at this
        simpa using this

theorem cleanList_all_fresh (k : Int) (es : List Envelope)
    (hmono : es.Pairwise (fun a b => a.Time ≤ b.Time))
    (hex : ∃ e ∈ es, k ≤ e.Time) :
    ∀ e ∈ cleanList k es, k ≤ e.Time := by
  induction es with
  | nil => rcases hex with ⟨e, he, _⟩; cases he
  | cons x rest ih =>
    by_cases hx : k ≤ x.Time
    · rw [cleanList, dropUntilFresh, if_pos hx]
      intro e he
      rcases List.mem_cons.mp he with h1 | h1
      · exact h1 ▸ hx
      · exact le_trans hx ((List.pairwise_cons.mp hmono).1 e h1)
    · rw [cleanList, dropUntilFresh, if_neg hx]
      have hex2 : ∃ e ∈ rest, k ≤ e.Time := by
        rcases hex with ⟨e, he, hke⟩
        rcases List.mem_cons.mp he with h1 | h1
        · exact absurd (h1 ▸ hke) hx
        · exact ⟨e, h1, hke⟩
      have hrest := ih (List.pairwise_cons.mp hmono).2 hex2
      cases hd : dropUntilFresh k rest with
      | none =>
        exfalso
        rcases hex2 with ⟨e, he, hke⟩
        exact absurd hke (not_le.mpr (dropUntilFresh_none k rest hd e he))
      | some s =>
        intro e he
        apply hrest
        rw [cleanList, hd]
        simpa using he

theorem cleanList_idem (k : Int) (es : List Envelope) :
    cleanList k (cleanList k es) = cleanList k es := by
  unfold cleanList
  cases hd : dropUntilFresh k es with
  | none => simp [hd]
  | some s =>
    rcases dropUntilFresh_some_head k es s hd with ⟨e, t, hs, he⟩
    simp only [Option.getD_some]
    rw [hs, dropUntilFresh, if_pos he]
    rfl

theorem lookupB_map (f : List Envelope → List Envelope)
    (l : List (String × List Envelope)) (id : String) :
    lookupB (l.map (fun kv => (kv.1, f kv.2))) id = (lookupB l id).map f := by
  induction l with
  | nil => rfl
  | cons kv rest ih =>
    by_cases hk : kv.1 = id
    · simp [lookupB, hk]
    · simp [lookupB, hk, ih]

/-- C8 counterexample: an entry all of whose envelopes are older than
the threshold is left untouched by `Buffer.Clean`, so a stale envelope
remains: at `nowNs = 4.3e9` the threshold is 1000 ms, the single
envelope has time 0, and cleaning changes nothing. -/
theorem clean_keeps_all_stale_entry_cex :
    Buffer.Clean bufStale 4300000000 = bufStale ∧
    envStale.Time < cleanKeepMs 4300000000 ∧
    envStale ∈ (lookupB (Buffer.Clean bufStale 4300000000).buf "a").getD [] := by
  refine ⟨by decide, by decide, by decide⟩

/-- C8 as amended: after `Clean`, each id's entry becomes its suffix
starting at the first envelope with time at least `now − 1.1 × grace`,
and is left unchanged when it has no such envelope.  Hence the cleaned
entry is a suffix of the old one (original order, nothing reordered),
every envelope at least that new is preserved, and — when the entry's
times are non-decreasing and at least one envelope is that new — no
older envelope remains.  Running `Clean` twice in immediate succession
equals running it once. -/
theorem clean_spec (b : Buffer) (nowNs : Int) (id : String) :
    ((lookupB (b.Clean nowNs).buf id).getD []).IsSuffix
        ((lookupB b.buf id).getD []) ∧
    (∀ e ∈ (lookupB b.buf id).getD [], cleanKeepMs nowNs ≤ e.Time →
      e ∈ (lookupB (b.Clean nowNs).buf id).getD []) ∧
    (((lookupB b.buf id).getD []).Pairwise (fun a b => a.Time ≤ b.Time) →
      (∃ e ∈ (lookupB b.buf id).getD [], cleanKeepMs nowNs ≤ e.Time) →
      ∀ e ∈ (lookupB (b.Clean nowNs).buf id).getD [],
        cleanKeepMs nowNs ≤ e.Time) ∧
    (b.Clean nowNs).Clean nowNs = b.Clean nowNs := by
  have hl : lookupB (b.Clean nowNs).buf id
      = (lookupB b.buf id).map (cleanList (cleanKeepMs nowNs)) := by
    unfold Buffer.Clean
    exact lookupB_map (cleanList (cleanKeepMs nowNs)) b.buf id
  refine ⟨?_, ?_, ?_, ?_⟩
  · rw [hl]
    cases lookupB b.buf id with
    | none => simp
    | some es => simpa using cleanList_suffix (cleanKeepMs nowNs) es
  · rw [hl]
    cases lookupB b.buf id with
    | none => simp
    | some es =>
      intro e he hf
      simpa using mem_cleanList_of_fresh (cleanKeepMs nowNs) es e (by simpa using he) hf
  · rw [hl]
    cases lookupB b.buf id with
    | none => simp
    | some es =>
      intro hmono hex e he
      exact cleanList_all_fresh (cleanKeepMs nowNs) es (by simpa using hmono)
        (by simpa using hex) e (by simpa using he)
  · unfold Buffer.Clean
    simp only [List.map_map]
    congr 1
    apply List.map_congr_left
    intro kv _
    simp only [Function.comp_apply]
    rw [cleanList_idem]

/-- C8 witness: the amended spec applied to an explicit buffer whose
entry mixes one stale and one fresh envelope, discharging the
monotonicity and existence hypotheses. -/
theorem clean_spec_witness :
    envStale ∈ (lookupB
      (Buffer.Clean ⟨[("a", [envStale, ⟨[], [], 1, 5000, "Peer", []⟩])]⟩ 4300000000).buf
        "a").getD [] → False := by
  intro hmem
  have hs := (clean_spec ⟨[("a", [envStale, ⟨[], [], 1, 5000, "Peer", []⟩])]⟩
    4300000000 "a").2.2.1
    (by decide)
    ⟨⟨[], [], 1, 5000, "Peer", []⟩, by decide, by decide⟩
    envStale hmem
  exact absurd hs (by decide)

/-!
### Claim C1

When a session with id `X` is still joined and a new session with the
same id and `lastNum < 0` posts Joiner, the guard ordering in
`receiveInt` routes the request to the takeover branch (`canFulfill` is
true whenever `num < 0`), so the "no takeover" branch — the one whose
body broadcasts Leaver, Joiner and Welcome — is unreachable.  The step
closes the old session, hands the new one an empty queue, pushes
nothing to anyone, and leaves the seq counter unchanged.
-/

/-- C1: evaluating the loop at the claim's trigger — old session
`sessX1` connected (room reached by its join, seq 1), new same-id
session `sessX2` with `Num < 0` posts Joiner — produces only the
old-ingress close and the empty replay-queue handoff: no Leaver, no
Joiner, no Welcome is pushed to any session, and the seq counter stays
1 instead of being incremented twice. -/
theorem joiner_same_id_no_takeover_is_silent_replace :
    sessX2.Num < 0 ∧ sessX1.ID = sessX2.ID ∧ sessX1 ≠ sessX2 ∧
    hubC1.clients = [(sessX1, true)] ∧ hubC1.num = 1 ∧
    (hubStep hubC1 (Input.pending ⟨sessX2, "Joiner", []⟩) 0 0).2.1 =
      [Output.CloseChan sessX1, Output.HandQueue sessX2 NewQueue] ∧
    (hubStep hubC1 (Input.pending ⟨sessX2, "Joiner", []⟩) 0 0).1.num = 1 ∧
    (hubStep hubC1 (Input.pending ⟨sessX2, "Joiner", []⟩) 0 0).1.clients =
      [(sessX2, true)] := by
  refine ⟨by decide, by decide, by decide, by decide, by decide, by decide,
    by decide, by decide⟩

/-!
### Claim C6

A reachable duplicate of still-joined ids: after a takeover, the
replaced session's reader posts its (inevitable) `LostConnection`;
`Hub.disconnect` executes `h.clients[c] = false`, which re-inserts the
forgotten session into the map.  The room then holds two still-joined
sessions with the same id.
-/

/-- C6: running the loop from the empty room over
`Joiner(X₁), Joiner(X₂), LostConnection(X₁)` — a session joins, a new
session with the same id takes over, and the old session's reader then
reports its dead transport — leaves the membership map holding both
sessions: `X₂` connected and `X₁` disconnected-awaiting-reconnection,
two distinct still-joined sessions with the same id `X`. -/
theorem duplicate_still_joined_ids_reachable :
    (runHub NewHub c6trace).1.clients = [(sessX2, true), (sessX1, false)] ∧
    (runHub NewHub c6trace).1.known sessX1 = true ∧
    (runHub NewHub c6trace).1.known sessX2 = true ∧
    sessX1 ≠ sessX2 ∧ sessX1.ID = sessX2.ID := by
  refine ⟨by decide, by decide, by decide, by decide, by decide⟩

/-!
### Claim C3

The duplicate-id state above also breaks the strictly-ascending
observation guarantee: with two map entries sharing id `X`, a Peer
broadcast buffers the same envelope twice under `X`, and a later
replacement session is handed a replay queue containing the same num
twice.
-/

/-- C3: running the loop over `c3trace` (a takeover whose displaced
session reports `LostConnection` late, two Peer rounds, then a
replacement attaching with resume-point 2) hands the final session
`sessX3` a replay queue whose nums are `[3, 3]` — the same num twice,
not strictly increasing — while `sessX3` stays admitted (connected). -/
theorem replacement_session_observes_duplicate_num :
    deliveredNums (runHub NewHub c3trace).2.1 sessX3 = [3, 3] ∧
    strictlyUp (deliveredNums (runHub NewHub c3trace).2.1 sessX3) = false ∧
    (runHub NewHub c3trace).1.connected sessX3 = true := by
  refine ⟨by decide, by decide, by decide⟩

/-!
### Claim C2

The replay queue handed to a takeover session.  `bounceHandler` gives a
session attaching with resume-point `lastnum = k ≥ 0` the num `k + 1`,
and the hub extracts the retained suffix starting at that successor
num — not at `k` itself.
-/

theorem hasNum_true_split (num : Int) (es : List Envelope)
    (h : hasNum es num = true) :
    ∃ pre, es = pre ++ suffixFrom es num ∧ (∀ e ∈ pre, e.Num ≠ num) ∧
      ∃ e t, suffixFrom es num = e :: t ∧ e.Num = num := by
  induction es with
  | nil => cases h
  | cons x rest ih =>
    by_cases hx : x.Num = num
    · refine ⟨[], by simp [suffixFrom, hx], by simp, x, rest,
        by simp [suffixFrom, hx], hx⟩
    · have h2 : hasNum rest num = true := by
        rw [hasNum, Bool.or_eq_true] at h
        rcases h with h1 | h1
        · exact absurd (by simpa using h1) hx
        · exact h1
      rcases ih h2 with ⟨pre, heq, hpre, e, t, hsf, henum⟩
      rw [suffixFrom, if_neg hx]
      refine ⟨x :: pre, ?_, ?_, e, t, hsf, henum⟩
      · rw [List.cons_append, ← heq]
      · intro e2 he2
        rcases List.mem_cons.mp he2 with h3 | h3
        · exact h3 ▸ hx
        · exact hpre e2 h3

theorem other_eq_some (h : Hub) (c x : Client) (hx : h.other c = some x) :
    (∃ b, (x, b) ∈ h.clients) ∧ x.ID = c.ID := by
  unfold Hub.other at hx
  have key : ∀ (l : List (Client × Bool)) (acc : Option Client),
      l.foldl (fun acc kv => if kv.1.ID = c.ID then some kv.1 else acc) acc
        = some x →
      (acc = some x) ∨ ((∃ b, (x, b) ∈ l) ∧ x.ID = c.ID) := by
    intro l
    induction l with
    | nil => intro acc hacc; exact Or.inl hacc
    | cons kv rest ih =>
      intro acc hacc
      rw [List.foldl_cons] at hacc
      rcases ih _ hacc with h1 | h1
      · by_cases hid : kv.1.ID = c.ID
        · rw [if_pos hid] at h1
          right
          refine ⟨⟨kv.2, ?_⟩, (Option.some_inj.mp h1) ▸ hid⟩
          rw [← Option.some_inj.mp h1]
          exact List.mem_cons_self kv rest
        · rw [if_neg hid] at h1
          exact Or.inl h1
      · right
        rcases h1 with ⟨⟨b, hb⟩, hid⟩
        exact ⟨⟨b, List.mem_cons_of_mem kv hb⟩, hid⟩
  rcases key h.clients none hx with h1 | h1
  · cases h1
  · exact h1

theorem known_of_mem (l : List (Client × Bool)) (x : Client) (b : Bool)
    (hmem : (x, b) ∈ l) : (lookupC l x).isSome = true := by
  induction l with
  | nil => cases hmem
  | cons kv rest ih =>
    by_cases hk : kv.1 = x
    · simp [lookupC, hk]
    · rw [lookupC, if_neg hk]
      rcases List.mem_cons.mp hmem with h1 | h1
      · exact absurd (congrArg Prod.fst h1.symm) hk
      · exact ih h1

theorem replace_outputs (h : Hub) (cNew : Client) (qNew : Queue)
    (cOld : Client) (hknown : h.known cOld = true) :
    (h.replace cNew qNew cOld).2 =
      (if h.connected cOld then [Output.CloseChan cOld] else [])
        ++ [Output.HandQueue cNew qNew] := by
  unfold Hub.replace
  rw [if_neg (by simp [hknown])]

theorem hubStep_takeover_outputs (h : Hub) (c : Client) (body : List Nat)
    (nowMs nowNs : Int) (hcf : h.canFulfill c.ID c.Num = true)
    (hsome : (h.other c).isSome = true) :
    (hubStep h (Input.pending ⟨c, "Joiner", body⟩) nowMs nowNs).2.1 =
      (h.replace c (h.buffer.Queue c.ID c.Num) ((h.other c).getD c)).2 := by
  simp only [hubStep, hcf, hsome]
  simp

/-- C2 counterexample: in a room with one still-joined session of id
`X`, seq 7 and retained nums 5 and 6 for `X`, a replacement attaching
with resume-point `lastNum = 5` (so its `Num` is `bounceNum 5 = 6`) and
with the event of seq 5 still retained is handed the queue `[env6]` —
not the retained suffix starting at seq 5, which is `[env5, env6]`. -/
theorem replay_suffix_starts_after_lastnum_cex :
    cNewC2.Num = bounceNum 5 ∧
    hubC2.buffer.Available "X" 5 = true ∧
    suffixFrom ((lookupB hubC2.buffer.buf "X").getD []) 5 = [env5, env6] ∧
    (hubStep hubC2 (Input.pending ⟨cNewC2, "Joiner", []⟩) 0 0).2.1 =
      [Output.CloseChan cOldC2, Output.HandQueue cNewC2 ⟨[env6]⟩] ∧
    Output.HandQueue cNewC2 ⟨[env5, env6]⟩ ∉
      (hubStep hubC2 (Input.pending ⟨cNewC2, "Joiner", []⟩) 0 0).2.1 := by
  refine ⟨by decide, by decide, by decide, by decide, by decide⟩

/-- C2 as amended: a replacement session attaching with resume-point
`lastNum = k ≥ 0` (so carrying `Num = bounceNum k = k + 1`) over a
still-joined same-id session, where an event with seq `k + 1` for its
id is still retained, is handed as its initial events exactly the
retained suffix of events buffered for its id starting at the first
event with seq `k + 1`, in original buffer order, with no gaps and no
duplicates relative to the buffer (it is a contiguous suffix). -/
theorem replay_queue_is_retained_suffix_from_successor
    (h : Hub) (c : Client) (k : Int) (body : List Nat) (nowMs nowNs : Int)
    (hk : 0 ≤ k) (hnum : c.Num = bounceNum k)
    (hsome : (h.other c).isSome = true)
    (havail : h.buffer.Available c.ID (k + 1) = true) :
    Output.HandQueue c (h.buffer.Queue c.ID (k + 1)) ∈
      (hubStep h (Input.pending ⟨c, "Joiner", body⟩) nowMs nowNs).2.1 ∧
    ∃ pre,
      (lookupB h.buffer.buf c.ID).getD []
        = pre ++ (h.buffer.Queue c.ID (k + 1)).q ∧
      (∀ e ∈ pre, e.Num ≠ k + 1) ∧
      ∃ e t, (h.buffer.Queue c.ID (k + 1)).q = e :: t ∧ e.Num = k + 1 := by
  have hnum1 : c.Num = k + 1 := by
    rw [hnum, bounceNum, if_pos hk]
  have hcf : h.canFulfill c.ID c.Num = true := by
    unfold Hub.canFulfill
    rw [hnum1, havail]
    simp
  rcases Option.isSome_iff_exists.mp hsome with ⟨cOld, hcOld⟩
  have hkn : h.known cOld = true := by
    rcases other_eq_some h c cOld hcOld with ⟨⟨b, hb⟩, _⟩
    unfold Hub.known
    exact known_of_mem h.clients cOld b hb
  constructor
  · rw [hubStep_takeover_outputs h c body nowMs nowNs hcf hsome,
      hcOld, Option.getD_some, replace_outputs h c _ cOld hkn, hnum1]
    exact List.mem_append_right _ (List.mem_singleton_self _)
  · have hes : ∃ es, lookupB h.buffer.buf c.ID = some es
        ∧ hasNum es (k + 1) = true := by
      unfold Buffer.Available at havail
      cases hl : lookupB h.buffer.buf c.ID with
      | none => rw [hl] at havail; cases havail
      | some es => rw [hl] at havail; exact ⟨es, rfl, havail⟩
    rcases hes with ⟨es, hl, hn⟩
    have hq : (h.buffer.Queue c.ID (k + 1)).q = suffixFrom es (k + 1) := by
      unfold Buffer.Queue
      rw [hl]
    rcases hasNum_true_split (k + 1) es hn with ⟨pre, heq, hpre, e, t, hsf, he⟩
    refine ⟨pre, ?_, hpre, e, t, ?_, he⟩
    · rw [hl, Option.getD_some, hq]
      exact heq
    · rw [hq, hsf]

/-- C2 witness: the amended spec applied at the concrete room of the
counterexample, resume-point 5, successor 6 retained. -/
theorem replay_queue_is_retained_suffix_from_successor_witness :
    Output.HandQueue cNewC2 (hubC2.buffer.Queue "X" 6) ∈
      (hubStep hubC2 (Input.pending ⟨cNewC2, "Joiner", []⟩) 0 0).2.1 := by
  have hr := replay_queue_is_retained_suffix_from_successor hubC2 cNewC2 5 []
    0 0 (by decide) (by decide) (by decide) (by decide)
  exact hr.1

/-!
### Send-loop lemmas
-/

theorem sendToEach_spec (env : Envelope) (cs : List Client) : ∀ h : Hub,
    (h.sendToEach cs env).1.clients = h.clients ∧
    (h.sendToEach cs env).1.num = h.num ∧
    (h.sendToEach cs env).2 = cs.filterMap (fun cl =>
      if (lookupC h.clients cl).getD false = true
      then some (Output.Push cl env) else none) := by
  induction cs with
  | nil => intro h; exact ⟨rfl, rfl, rfl⟩
  | cons cl rest ih =>
    intro h
    obtain ⟨ih1, ih2, ih3⟩ := ih (h.send cl env).1
    have hcl : (h.send cl env).1.clients = h.clients := rfl
    refine ⟨?_, ?_, ?_⟩
    · show ((h.send cl env).1.sendToEach rest env).1.clients = h.clients
      rw [ih1]; exact hcl
    · show ((h.send cl env).1.sendToEach rest env).1.num = h.num
      rw [ih2]; rfl
    · show (h.send cl env).2 ++ ((h.send cl env).1.sendToEach rest env).2 = _
      rw [ih3, hcl]
      by_cases hc : (lookupC h.clients cl).getD false = true
      · simp [Hub.send, Hub.connected, hc, List.filterMap_cons]
      · simp [Hub.send, Hub.connected, hc, List.filterMap_cons]

theorem lookupB_addB_same (l : List (String × List Envelope)) (id : String)
    (e : Envelope) :
    lookupB (addB l id e) id = some ((lookupB l id).getD [] ++ [e]) := by
  induction l with
  | nil => simp [addB, lookupB]
  | cons kv rest ih =>
    by_cases hk : kv.1 = id
    · simp [addB, lookupB, hk]
    · simp [addB, lookupB, hk, ih]

theorem lookupB_addB_other (l : List (String × List Envelope))
    (id id2 : String) (e : Envelope) (hne : id2 ≠ id) :
    lookupB (addB l id2 e) id = lookupB l id := by
  induction l with
  | nil => simp [addB, lookupB, hne]
  | cons kv rest ih =>
    by_cases hk : kv.1 = id2
    · rw [addB, if_pos hk, lookupB, lookupB, if_neg (hk ▸ hne), if_neg (hk ▸ hne)]
    · rw [addB, if_neg hk, lookupB, lookupB]
      by_cases hk2 : kv.1 = id
      · rw [if_pos hk2, if_pos hk2]
      · rw [if_neg hk2, if_neg hk2, ih]

theorem mem_after_addB (l : List (String × List Envelope)) (id id2 : String)
    (e e2 : Envelope) (hmem : e ∈ (lookupB l id).getD []) :
    e ∈ (lookupB (addB l id2 e2) id).getD [] := by
  by_cases hk : id2 = id
  · subst hk
    rw [lookupB_addB_same]
    simp only [Option.getD_some, List.mem_append]
    exact Or.inl hmem
  · rw [lookupB_addB_other l id id2 e2 hk]
    exact hmem

theorem sendToEach_mem_preserved (env e0 : Envelope) (id : String)
    (cs : List Client) : ∀ h : Hub,
    e0 ∈ (lookupB h.buffer.buf id).getD [] →
    e0 ∈ (lookupB (h.sendToEach cs env).1.buffer.buf id).getD [] := by
  induction cs with
  | nil => intro h hmem; exact hmem
  | cons cl rest ih =>
    intro h hmem
    show e0 ∈ (lookupB ((h.send cl env).1.sendToEach rest env).1.buffer.buf id).getD []
    exact ih (h.send cl env).1 (mem_after_addB h.buffer.buf id cl.ID e0 env hmem)

theorem sendToEach_mem_sent (env : Envelope) (cs : List Client) : ∀ h : Hub,
    ∀ cl ∈ cs, env ∈ (lookupB (h.sendToEach cs env).1.buffer.buf cl.ID).getD [] := by
  induction cs with
  | nil => intro h cl hcl; cases hcl
  | cons x rest ih =>
    intro h cl hcl
    rcases List.mem_cons.mp hcl with h1 | h1
    · subst h1
      show env ∈ (lookupB ((h.send cl env).1.sendToEach rest env).1.buffer.buf cl.ID).getD []
      apply sendToEach_mem_preserved
      show env ∈ (lookupB (addB h.buffer.buf cl.ID env) cl.ID).getD []
      rw [lookupB_addB_same]
      simp
    · exact ih (h.send x env).1 cl h1

theorem sendToEach_lookup_ne (env : Envelope) (id : String) (cs : List Client)
    (hne : ∀ cl ∈ cs, cl.ID ≠ id) : ∀ h : Hub,
    lookupB (h.sendToEach cs env).1.buffer.buf id = lookupB h.buffer.buf id := by
  induction cs with
  | nil => intro h; rfl
  | cons cl rest ih =>
    intro h
    show lookupB ((h.send cl env).1.sendToEach rest env).1.buffer.buf id = _
    rw [ih (fun x hx => hne x (List.mem_cons_of_mem cl hx)) (h.send cl env).1]
    exact lookupB_addB_other h.buffer.buf id cl.ID env
      (hne cl (List.mem_cons_self cl rest))

theorem ne_of_mem_exclude (h : Hub) (c cl : Client)
    (hmem : cl ∈ h.exclude c) : cl ≠ c := by
  unfold Hub.exclude at hmem
  rcases List.mem_map.mp hmem with ⟨kv, hkv, hfst⟩
  have := (List.mem_filter.mp hkv).2
  rw [hfst] at this
  simpa using this

/-!
### Claim C4

The Peer round: fan-out to every other session, one Receipt back to the
sender, one seq increment.
-/

theorem hubStep_peer (h : Hub) (c : Client) (body : List Nat)
    (nowMs nowNs : Int) :
    hubStep h (Input.pending ⟨c, "Peer", body⟩) nowMs nowNs =
      (let envP : Envelope := ⟨[c.ID], ids (h.exclude c), h.num, nowMs, "Peer", body⟩
       let r1 := h.sendToEach (h.exclude c) envP
       let envR : Envelope := ⟨[c.ID], ids (h.exclude c), h.num, nowMs, "Receipt", body⟩
       let r2 := r1.1.send c envR
       ({ r2.1 with num := r2.1.num + 1, buffer := r2.1.buffer.Clean nowNs },
        r1.2 ++ r2.2, false)) := by
  simp [hubStep]

/-- C4: for a Peer request with body `B` from a connected session `c`
(in any room state, provided only that the clock is sane — the freshly
composed envelope is not older than the cleaning threshold), the step:
increments the seq exactly once; buffers the Peer envelope (current
seq, current time, `from = [id c]`, `to` = ids of the other joined
sessions, body `B`) for every joined session other than `c` and pushes
it to every connected one; pushes exactly one Receipt to `c`, and
nothing else is pushed to `c`; and the Receipt agrees with the Peer on
num, time, from, to and body, differing only in intent. -/
theorem peer_round_spec (h : Hub) (c : Client) (body : List Nat)
    (nowMs nowNs : Int) (hconn : h.connected c = true)
    (hfresh : cleanKeepMs nowNs ≤ nowMs) :
    (hubStep h (Input.pending ⟨c, "Peer", body⟩) nowMs nowNs).1.num
        = h.num + 1 ∧
    (∀ cl ∈ h.exclude c,
      (⟨[c.ID], ids (h.exclude c), h.num, nowMs, "Peer", body⟩ : Envelope) ∈
        (lookupB (hubStep h (Input.pending ⟨c, "Peer", body⟩) nowMs nowNs).1.buffer.buf
          cl.ID).getD []) ∧
    (∀ cl ∈ h.exclude c, h.connected cl = true →
      Output.Push cl ⟨[c.ID], ids (h.exclude c), h.num, nowMs, "Peer", body⟩ ∈
        (hubStep h (Input.pending ⟨c, "Peer", body⟩) nowMs nowNs).2.1) ∧
    ((hubStep h (Input.pending ⟨c, "Peer", body⟩) nowMs nowNs).2.1.count
        (Output.Push c ⟨[c.ID], ids (h.exclude c), h.num, nowMs, "Receipt", body⟩)
      = 1) ∧
    (∀ env0, Output.Push c env0 ∈
        (hubStep h (Input.pending ⟨c, "Peer", body⟩) nowMs nowNs).2.1 →
      env0 = ⟨[c.ID], ids (h.exclude c), h.num, nowMs, "Receipt", body⟩) := by
  rw [hubStep_peer]
  set envP : Envelope := ⟨[c.ID], ids (h.exclude c), h.num, nowMs, "Peer", body⟩ with hPdef
  set envR : Envelope := ⟨[c.ID], ids (h.exclude c), h.num, nowMs, "Receipt", body⟩ with hRdef
  obtain ⟨hc1, hc2, hc3⟩ := sendToEach_spec envP (h.exclude c) h
  set r1 := h.sendToEach (h.exclude c) envP with hr1
  have hconn1 : r1.1.connected c = true := by
    unfold Hub.connected
    rw [hc1]
    exact hconn
  have hsend2 : (r1.1.send c envR).2 = [Output.Push c envR] := by
    unfold Hub.send
    rw [if_pos hconn1]
  have hsendnum : (r1.1.send c envR).1.num = r1.1.num := rfl
  have hRnotP : ∀ cl : Client, Output.Push cl envP ≠ Output.Push c envR := by
    intro cl heq
    injection heq with h1 h2
    have h3 : ("Peer" : String) = "Receipt" := congrArg Envelope.Intent h2
    exact absurd h3 (by decide)
  refine ⟨?_, ?_, ?_, ?_, ?_⟩
  · show (r1.1.send c envR).1.num + 1 = h.num + 1
    rw [hsendnum, hc2]
  · intro cl hcl
    show envP ∈ (lookupB ((r1.1.send c envR).1.buffer.Clean nowNs).buf cl.ID).getD []
    have hsent := sendToEach_mem_sent envP (h.exclude c) h cl hcl
    have hafter : envP ∈ (lookupB (r1.1.send c envR).1.buffer.buf cl.ID).getD [] := by
      show envP ∈ (lookupB (addB r1.1.buffer.buf c.ID envR) cl.ID).getD []
      exact mem_after_addB r1.1.buffer.buf cl.ID c.ID envP envR hsent
    unfold Buffer.Clean
    rw [lookupB_map]
    cases hl : lookupB (r1.1.send c envR).1.buffer.buf cl.ID with
    | none => rw [hl] at hafter; cases hafter
    | some es =>
      rw [hl] at hafter
      exact mem_cleanList_of_fresh (cleanKeepMs nowNs) es envP
        (by simpa using hafter) hfresh
  · intro cl hcl hclconn
    show Output.Push cl envP ∈ r1.2 ++ (r1.1.send c envR).2
    apply List.mem_append_left
    rw [hc3]
    apply List.mem_filterMap.mpr
    refine ⟨cl, hcl, ?_⟩
    have hcc : (lookupC h.clients cl).getD false = true := hclconn
    rw [if_pos hcc]
  · show (r1.2 ++ (r1.1.send c envR).2).count (Output.Push c envR) = 1
    rw [List.count_append, hsend2]
    have hzero : r1.2.count (Output.Push c envR) = 0 := by
      apply List.count_eq_zero.mpr
      intro hmem
      rw [hc3] at hmem
      rcases List.mem_filterMap.mp hmem with ⟨cl, _, hcl2⟩
      by_cases hcc : (lookupC h.clients cl).getD false = true
      · rw [if_pos hcc] at hcl2
        exact hRnotP cl (Option.some_inj.mp hcl2)
      · rw [if_neg hcc] at hcl2
        cases hcl2
    rw [hzero]
    simp
  · intro env0 hmem
    rcases List.mem_append.mp hmem with h1 | h1
    · exfalso
      rw [hc3] at h1
      rcases List.mem_filterMap.mp h1 with ⟨cl, hcl, hcl2⟩
      by_cases hcc : (lookupC h.clients cl).getD false = true
      · rw [if_pos hcc] at hcl2
        have heq := Option.some_inj.mp hcl2
        injection heq with hclc _
        exact ne_of_mem_exclude h c cl hcl hclc
      · rw [if_neg hcc] at hcl2
        cases hcl2
    · rw [hsend2] at h1
      rcases List.mem_singleton.mp h1 with h2
      injection h2

/-- C4 witness: the Peer round applied in a two-session room. -/
theorem peer_round_spec_witness :
    (hubStep ⟨[(sessY, true), (sessX1, true)], 4, NewBuffer⟩
      (Input.pending ⟨sessY, "Peer", [7]⟩) 100 0).1.num = 5 := by
  have hr := peer_round_spec ⟨[(sessY, true), (sessX1, true)], 4, NewBuffer⟩
    sessY [7] 100 0 (by decide) (by decide)
  exact hr.1

/-!
### Claim C7

The Timeout decision: no-op for unknown sessions; otherwise removal,
retention drop, Leaver broadcast to the remaining members with the
fresh seq, and loop exit exactly when the removal empties the room.
-/

theorem lookupB_none_of_not_mem (l : List (String × List Envelope))
    (id : String) (h : id ∉ l.map Prod.fst) : lookupB l id = none := by
  induction l with
  | nil => rfl
  | cons kv rest ih =>
    rw [List.map_cons] at h
    rw [lookupB, if_neg (fun he => h (by rw [← he]; exact List.mem_cons_self kv.1 _))]
    exact ih (fun hm => h (List.mem_cons_of_mem kv.1 hm))

theorem removeB_lookup_self (l : List (String × List Envelope)) (id : String)
    (hnd : (l.map Prod.fst).Nodup) : lookupB (removeB l id) id = none := by
  induction l with
  | nil => rfl
  | cons kv rest ih =>
    rw [List.map_cons, List.nodup_cons] at hnd
    by_cases hk : kv.1 = id
    · rw [removeB, if_pos hk]
      exact lookupB_none_of_not_mem rest id (hk ▸ hnd.1)
    · rw [removeB, if_neg hk, lookupB, if_neg hk]
      exact ih hnd.2

/-- C7: for a Timeout about session `c`: if `c` is not known the step is
a no-op; if `c` is known it is removed from the membership, the loop
breaks exactly when the removal leaves zero sessions, and otherwise the
seq counter advances by one, the step's outputs are precisely the
pushes of the Leaver event (from `[id c]`, to the remaining ids, with
the pre-increment fresh seq) to every remaining connected session, the
Leaver is buffered for every remaining session, and — buffer keys being
unique, and no remaining session sharing `c`'s id — `c`'s retention
entry is gone. -/
theorem timeout_step_spec (h : Hub) (c : Client) (nowMs nowNs : Int) :
    (h.known c = false →
      hubStep h (Input.timeout c) nowMs nowNs = (h, [], false)) ∧
    (h.known c = true →
      (hubStep h (Input.timeout c) nowMs nowNs).1.clients
        = deleteC h.clients c) ∧
    (h.known c = true →
      ((hubStep h (Input.timeout c) nowMs nowNs).2.2 = true
        ↔ (deleteC h.clients c).isEmpty = true)) ∧
    (h.known c = true → (deleteC h.clients c).isEmpty = true →
      hubStep h (Input.timeout c) nowMs nowNs = (h.remove c, [], true)) ∧
    (h.known c = true → (deleteC h.clients c).isEmpty = false →
      (hubStep h (Input.timeout c) nowMs nowNs).1.num = h.num + 1 ∧
      (hubStep h (Input.timeout c) nowMs nowNs).2.1
        = ((deleteC h.clients c).map Prod.fst).filterMap (fun cl =>
            if (lookupC (deleteC h.clients c) cl).getD false = true
            then some (Output.Push cl
              ⟨[c.ID], ids ((deleteC h.clients c).map Prod.fst), h.num,
                nowMs, "Leaver", []⟩)
            else none) ∧
      (∀ kv ∈ deleteC h.clients c,
        (⟨[c.ID], ids ((deleteC h.clients c).map Prod.fst), h.num, nowMs,
          "Leaver", []⟩ : Envelope) ∈
          (lookupB (hubStep h (Input.timeout c) nowMs nowNs).1.buffer.buf
            kv.1.ID).getD []) ∧
      ((h.buffer.buf.map Prod.fst).Nodup →
        (∀ kv ∈ deleteC h.clients c, kv.1.ID ≠ c.ID) →
        lookupB (hubStep h (Input.timeout c) nowMs nowNs).1.buffer.buf c.ID
          = none)) := by
  by_cases hk : h.known c = false
  · have hred : hubStep h (Input.timeout c) nowMs nowNs = (h, [], false) := by
      simp only [hubStep]
      rw [if_pos hk]
    refine ⟨fun _ => hred, ?_, ?_, ?_, ?_⟩ <;> intro hk2 <;>
      exact absurd hk2 (by simp [hk])
  · have hk2 : h.known c = true := by
      cases hval : h.known c
      · exact absurd hval hk
      · rfl
    by_cases hemp : (deleteC h.clients c).isEmpty = true
    · have hred : hubStep h (Input.timeout c) nowMs nowNs
          = (h.remove c, [], true) := by
        simp only [hubStep]
        rw [if_neg (by simp [hk2]), if_pos (by exact hemp)]
      refine ⟨fun hf => absurd hf (by simp [hk2]), fun _ => ?_, fun _ => ?_,
        fun _ _ => hred, fun _ hne => absurd hemp (by simp [hne])⟩
      · rw [hred]; rfl
      · rw [hred]; simpa using hemp
    · have hempf : (deleteC h.clients c).isEmpty = false := by
        cases hval : (deleteC h.clients c).isEmpty
        · rfl
        · exact absurd hval hemp
      have hred : hubStep h (Input.timeout c) nowMs nowNs
          = ({ ((h.remove c).leaver c nowMs).1 with
                num := ((h.remove c).leaver c nowMs).1.num + 1 },
             ((h.remove c).leaver c nowMs).2, false) := by
        simp only [hubStep]
        rw [if_neg (by simp [hk2]), if_neg (by exact hemp)]
      have hrem : (h.remove c).clients = deleteC h.clients c := rfl
      obtain ⟨hs1, hs2, hs3⟩ := sendToEach_spec
        (⟨[c.ID], ids ((deleteC h.clients c).map Prod.fst), h.num, nowMs,
          "Leaver", []⟩ : Envelope)
        ((deleteC h.clients c).map Prod.fst) (h.remove c)
      have hleav : (h.remove c).leaver c nowMs
          = (h.remove c).sendToEach ((deleteC h.clients c).map Prod.fst)
              ⟨[c.ID], ids ((deleteC h.clients c).map Prod.fst), h.num, nowMs,
                "Leaver", []⟩ := rfl
      refine ⟨fun hf => absurd hf (by simp [hk2]), fun _ => ?_, fun _ => ?_,
        fun _ he => absurd he (by simp [hempf]), fun _ _ => ?_⟩
      · rw [hred]
        show ((h.remove c).leaver c nowMs).1.clients = deleteC h.clients c
        rw [hleav, hs1]
        exact hrem
      · rw [hred]
        simp [hempf]
      · refine ⟨?_, ?_, ?_, ?_⟩
        · rw [hred]
          show ((h.remove c).leaver c nowMs).1.num + 1 = h.num + 1
          rw [hleav, hs2]
          rfl
        · rw [hred]
          show ((h.remove c).leaver c nowMs).2 = _
          rw [hleav, hs3, hrem]
        · intro kv hkv
          rw [hred]
          show _ ∈ (lookupB ((h.remove c).leaver c nowMs).1.buffer.buf
            kv.1.ID).getD []
          rw [hleav]
          exact sendToEach_mem_sent _ _ (h.remove c) kv.1
            (List.mem_map_of_mem Prod.fst hkv)
        · intro hnd hid
          rw [hred]
          show lookupB ((h.remove c).leaver c nowMs).1.buffer.buf c.ID = none
          rw [hleav, sendToEach_lookup_ne _ c.ID _
            (fun cl hcl => by
              rcases List.mem_map.mp hcl with ⟨kv, hkv, hfst⟩
              exact hfst ▸ hid kv hkv) (h.remove c)]
          show lookupB (removeB h.buffer.buf c.ID) c.ID = none
          exact removeB_lookup_self h.buffer.buf c.ID hnd

/-- C7 witness: the Timeout decision applied at explicit rooms — a
no-op for an unknown session, and removal plus Leaver for a known one
in a two-session room. -/
theorem timeout_step_spec_witness :
    hubStep ⟨[(sessY, true)], 3, NewBuffer⟩ (Input.timeout sessX1) 0 0
      = (⟨[(sessY, true)], 3, NewBuffer⟩, [], false) ∧
    (hubStep ⟨[(sessY, true), (sessX1, true)], 3, NewBuffer⟩
      (Input.timeout sessX1) 0 0).1.num = 4 := by
  constructor
  · exact (timeout_step_spec ⟨[(sessY, true)], 3, NewBuffer⟩ sessX1 0 0).1
      (by decide)
  · exact ((timeout_step_spec ⟨[(sessY, true), (sessX1, true)], 3, NewBuffer⟩
      sessX1 0 0).2.2.2.2 (by decide) (by decide)).1

end BGF
